import Mathlib

/-!
Verification of the transcript parser core (`convo/parser.py`).

The parser is embedded shallowly: a source line is a `List Char`
(`str.splitlines` output, hence newline-free), Python regexes are
translated into explicit character-list predicates, and the stateful
two-pass `parse` loop becomes a recursion threading the "current open
block" explicitly.  Simplifications of the embedding, noted where they
occur: character classes (`\w`, `\s`, `str.lower`, `str.strip`) are
modelled at ASCII granularity, where Python is Unicode-aware; `.` in a
regex matches any character (lines are newline-free).
-/

set_option autoImplicit false

namespace Convo

abbrev Line := List Char

/-- `LineType` enum from `parser.py`. -/
inductive LineType where
  | USER_TURN
  | ASST_TURN
  | TOOL_CALL
  | TOOL_OUTPUT
  | PROGRESS
  | CONTINUATION
  deriving DecidableEq, Repr

/-- The two speaker values a `Turn` can carry. -/
inductive Speaker where
  | user
  | assistant
  deriving DecidableEq, Repr

/-- `Turn` dataclass: speaker, paragraphs, display label. -/
structure Turn where
  speaker : Speaker
  paragraphs : List Line
  speaker_label : Line
  deriving DecidableEq, Repr

/-- `_Block` dataclass: opening line type plus accumulated raw lines. -/
structure Block where
  lt : LineType
  raw_lines : List Line
  deriving DecidableEq, Repr

/-! ### Character classes (ASCII models of Python `\d`, `[A-Z]`, `\w`, `\s`) -/

def isDigitC (c : Char) : Bool := '0' ≤ c && c ≤ '9'

def isUpperC (c : Char) : Bool := 'A' ≤ c && c ≤ 'Z'

def isLowerC (c : Char) : Bool := 'a' ≤ c && c ≤ 'z'

def isAlphaC (c : Char) : Bool := isUpperC c || isLowerC c

/-- Regex `\w`: word character (ASCII model of Python Unicode `\w`). -/
def isWordC (c : Char) : Bool := isAlphaC c || isDigitC c || c = '_'

/-- Regex `\s` / `str.strip` whitespace (ASCII model). -/
def isWs (c : Char) : Bool :=
  c = ' ' || c = '\t' || c = '\n' || c = '\r' || c = '\x0b' || c = '\x0c'

/-- `str.lower`, ASCII model (`Char.toLower` lowers only `A`–`Z`). -/
def lowerL (l : Line) : Line := l.map Char.toLower

/-- Left half of `str.strip()`. -/
def stripLeft (l : Line) : Line := l.dropWhile isWs

/-- Right half of `str.strip()`. -/
def stripRight (l : Line) : Line := (l.reverse.dropWhile isWs).reverse

/-- `str.strip()`: drop leading and trailing whitespace. -/
def strip (l : Line) : Line := stripRight (stripLeft l)

/-- `a.startswith(b)` on character lists (pattern first). -/
def startsWithL : Line → Line → Bool
  | [], _ => true
  | _ :: _, [] => false
  | p :: ps, c :: cs => p = c && startsWithL ps cs

/-- Python `needle in hay` substring test. -/
def containsSub (needle : Line) : Line → Bool
  | [] => needle.isEmpty
  | c :: rest => startsWithL needle (c :: rest) || containsSub needle rest

/-- Does the head character of the line satisfy `p` (false on empty)? -/
def headCheck (p : Char → Bool) : Line → Bool
  | [] => false
  | c :: _ => p c

/-- `\b` after a word character: end of line or a non-word character next. -/
def boundaryAfterL : Line → Bool
  | [] => true
  | c :: _ => !isWordC c

/-! ### The classifier regexes -/

/-- `_SLASH_CMD_RE = ^❯ /\w`, anchored match against the whole line:
the three-character prefix `"❯ /"` followed by a word character. -/
def slashCmdMatch (l : Line) : Bool :=
  startsWithL ('❯' :: ' ' :: ['/']) l && headCheck isWordC (l.drop 3)

/-- Branch `[A-Z][a-zA-Z]+\(` of `_TOOL_CALL_RE`, applied to the text after
`"● "`.  The greedy `[a-zA-Z]+` run is deterministic here because `(` is not
alphabetic, so taking the maximal run is exactly the regex semantics. -/
def camelParen (rest : Line) : Bool :=
  match rest with
  | c :: cs =>
    let run := cs.takeWhile isAlphaC
    isUpperC c && decide (1 ≤ run.length) && ((cs.drop run.length).head? == some '(')
  | [] => false

/-- Branch `Read\s` of `_TOOL_CALL_RE`: the literal word `Read` then one
whitespace character. -/
def readMatch (rest : Line) : Bool :=
  startsWithL (String.toList "Read") rest && headCheck isWs (rest.drop 4)

/-- Branch `Searched\b` of `_TOOL_CALL_RE`: the literal word then a word
boundary (end of line or a non-word character). -/
def searchedMatch (rest : Line) : Bool :=
  startsWithL (String.toList "Searched") rest && boundaryAfterL (rest.drop 8)

/-- `_TOOL_CALL_RE = ^● ([A-Z][a-zA-Z]+\(|Read\s|Searched\b)`. -/
def toolCallMatch (l : Line) : Bool :=
  match l with
  | '●' :: ' ' :: rest => camelParen rest || readMatch rest || searchedMatch rest
  | _ => false

/-- `_TOOL_OUTPUT_RE = ^\s*⎿`. -/
def toolOutputMatch (l : Line) : Bool :=
  (l.dropWhile isWs).head? == some '⎿'

/-- The five-character probe `" for \d"` used by the progress regex. -/
def forDigitAt (l : Line) : Bool :=
  match l with
  | ' ' :: 'f' :: 'o' :: 'r' :: ' ' :: c :: _ => isDigitC c
  | _ => false

/-- Does `p` hold at some position (suffix) of the line? -/
def existsPos (p : Line → Bool) : Line → Bool
  | [] => p []
  | c :: rest => p (c :: rest) || existsPos p rest

/-- `_PROGRESS_RE = ^✻ .+ for \d+`, applied to the stripped line.  `.+`
consumes at least one character, so the `" for \d"` probe must start at
offset ≥ 1 after the `"✻ "` marker. -/
def progressMatch (s : Line) : Bool :=
  match s with
  | '✻' :: ' ' :: _ :: rest => existsPos forDigitAt rest
  | _ => false

def ctrlO : Line := String.toList "ctrl+o"

/-- `_classify` from `parser.py`: the per-line classifier. -/
def classify (l : Line) : LineType :=
  if startsWithL ('❯' :: [' ']) l then
    (if slashCmdMatch l then .TOOL_CALL else .USER_TURN)
  else if startsWithL ('●' :: [' ']) l then
    (if toolCallMatch l || containsSub ctrlO (lowerL l) then .TOOL_CALL else .ASST_TURN)
  else if toolOutputMatch l then .TOOL_OUTPUT
  else if progressMatch (strip l) then .PROGRESS
  else .CONTINUATION

/-! ### Paragraph reflow (`_paragraphize`) -/

def dashes : Line := ['-', '-', '-']

/-- `" ".join(fragments)`. -/
def joinSp : List Line → Line
  | [] => []
  | [f] => f
  | f :: g :: fs => f ++ ' ' :: joinSp (g :: fs)

/-- The loop body of `_paragraphize`, with the accumulator `current`
threaded explicitly; emits paragraphs in order, flushing at the end. -/
def paraGo (current : List Line) : List Line → List Line
  | [] => if current.isEmpty then [] else [joinSp current]
  | l :: ls =>
    if (strip l).isEmpty then
      (if current.isEmpty then [] else [joinSp current]) ++ paraGo [] ls
    else if strip l = dashes then
      (if current.isEmpty then [] else [joinSp current]) ++ dashes :: paraGo [] ls
    else
      paraGo (current ++ [strip l]) ls

/-- `_paragraphize`, including the final `if p` filter. -/
def paragraphize (raw_lines : List Line) : List Line :=
  (paraGo [] raw_lines).filter (fun p => !p.isEmpty)

/-! ### Pass 1: block assembly -/

def isOpening (lt : LineType) : Bool :=
  lt = .USER_TURN || lt = .ASST_TURN || lt = .TOOL_CALL

def isNoise (lt : LineType) : Bool :=
  lt = .TOOL_CALL || lt = .TOOL_OUTPUT || lt = .PROGRESS

/-- Pass 1 of `parse`: the fold over classified lines, with the mutable
`current` block pointer made an explicit `Option` accumulator.  A finished
block is emitted when the next opening line arrives (or at end of input),
preserving creation order. -/
def assembleGo (cur : Option Block) : List Line → List Block
  | [] => cur.toList
  | l :: ls =>
    if isOpening (classify l) then
      cur.toList ++ assembleGo (some ⟨classify l, [l.drop 2]⟩) ls
    else if classify l = .TOOL_OUTPUT || classify l = .PROGRESS then
      match cur with
      | some b =>
        if isNoise b.lt then assembleGo (some ⟨b.lt, b.raw_lines ++ [l]⟩) ls
        else assembleGo (some b) ls
      | none => assembleGo none ls
    else
      match cur with
      | some b => assembleGo (some ⟨b.lt, b.raw_lines ++ [l]⟩) ls
      | none => assembleGo none ls

def assemble (lines : List Line) : List Block := assembleGo none lines

/-! ### Pass 2: turn building -/

/-- The per-block body of pass 2 of `parse`: skip noise blocks unless
verbose, resolve speaker and label, reflow, drop if no paragraphs. -/
def mkTurn (assistant_label user_label : Line) (verbose : Bool) (b : Block) :
    Option Turn :=
  if isNoise b.lt && !verbose then none
  else if (paragraphize b.raw_lines).isEmpty then none
  else
    some ⟨if b.lt = .USER_TURN then .user else .assistant,
          paragraphize b.raw_lines,
          if (if b.lt = .USER_TURN then Speaker.user else Speaker.assistant) = Speaker.user
          then user_label else assistant_label⟩

/-- `parse` from `parser.py`, over an already-split line list. -/
def parse (lines : List Line) (assistant_label user_label : Line)
    (verbose : Bool) : List Turn :=
  (assemble lines).filterMap (mkTurn assistant_label user_label verbose)

/-! ### Annotated assembler (ghost instrumentation for provenance)

`assembleAGo` mirrors `assembleGo` exactly, additionally recording with
each stored raw line the `LineType` it was classified as when it entered
the block.  Erasing the annotations recovers `assembleGo` (proved below),
so statements about where a Turn's content originated can be made against
the annotated blocks. -/

structure BlockA where
  lt : LineType
  lines : List (LineType × Line)
  deriving DecidableEq, Repr

def eraseA (b : BlockA) : Block := ⟨b.lt, b.lines.map Prod.snd⟩

def assembleAGo (cur : Option BlockA) : List Line → List BlockA
  | [] => cur.toList
  | l :: ls =>
    if isOpening (classify l) then
      cur.toList ++ assembleAGo (some ⟨classify l, [(classify l, l.drop 2)]⟩) ls
    else if classify l = .TOOL_OUTPUT || classify l = .PROGRESS then
      match cur with
      | some b =>
        if isNoise b.lt then assembleAGo (some ⟨b.lt, b.lines ++ [(classify l, l)]⟩) ls
        else assembleAGo (some b) ls
      | none => assembleAGo none ls
    else
      match cur with
      | some b => assembleAGo (some ⟨b.lt, b.lines ++ [(classify l, l)]⟩) ls
      | none => assembleAGo none ls

def assembleA (lines : List Line) : List BlockA := assembleAGo none lines

/-! ### Metadata: `detect_date` -/

/-- Is the position before the current character a `\b` boundary, given the
previous character (`none` at start of line)?  Valid when the character at
the position is a word character, as it is at every use site. -/
def boundaryBefore (prev : Option Char) : Bool :=
  match prev with
  | none => true
  | some p => !isWordC p

/-- One anchored attempt of `\b(\d{4}-\d{2}-\d{2})\b` at the current
position; returns the captured group. -/
def isoAt (prev : Option Char) (l : Line) : Option Line :=
  match l with
  | a :: b :: c :: d :: '-' :: e :: f :: '-' :: g :: h :: rest =>
    if boundaryBefore prev && isDigitC a && isDigitC b && isDigitC c && isDigitC d
        && isDigitC e && isDigitC f && isDigitC g && isDigitC h
        && boundaryAfterL rest
    then some [a, b, c, d, '-', e, f, '-', g, h] else none
  | _ => none

/-- `re.search` for the ISO date pattern: leftmost match in the line. -/
def isoSearch : Option Char → Line → Option Line
  | _, [] => none
  | prev, c :: rest =>
    match isoAt prev (c :: rest) with
    | some d => some d
    | none => isoSearch (some c) rest

def isoLine (l : Line) : Option Line := isoSearch none l

def monthNames : List Line :=
  [String.toList "January", String.toList "February", String.toList "March",
   String.toList "April", String.toList "May", String.toList "June",
   String.toList "July", String.toList "August", String.toList "September",
   String.toList "October", String.toList "November", String.toList "December"]

/-- Take exactly `k` digit characters from the front. -/
def takeDigits (k : Nat) (l : Line) : Option (Line × Line) :=
  match k, l with
  | 0, l => some ([], l)
  | k + 1, c :: rest =>
    if isDigitC c then
      match takeDigits k rest with
      | some (ds, r) => some (c :: ds, r)
      | none => none
    else none
  | _ + 1, [] => none

/-- The regex tail `,?\s+\d{4}\b` after the day digits.  `,?` is forced
(a comma, not being whitespace, must be consumed for `\s+` to succeed) and
`\s+` is deterministic (maximal run), so no backtracking arises. -/
def yearTail (l : Line) : Option Line :=
  let cm : Line × Line :=
    match l with
    | ',' :: rest => (([','] : Line), rest)
    | _ => (([] : Line), l)
  let ws := cm.2.takeWhile isWs
  if ws.isEmpty then none
  else
    match takeDigits 4 (cm.2.drop ws.length) with
    | some (ys, r) => if boundaryAfterL r then some (cm.1 ++ ws ++ ys) else none
    | none => none

/-- `\d{1,2}` then the year tail, with the regex's greedy backtracking:
two digits are tried first, then one. -/
def dayTail (l : Line) : Option Line :=
  let one : Option Line :=
    match takeDigits 1 l with
    | some (ds1, r1) => (yearTail r1).map (fun t => ds1 ++ t)
    | none => none
  match takeDigits 2 l with
  | some (ds, r) =>
    match yearTail r with
    | some t => some (ds ++ t)
    | none => one
  | none => one

/-- Try each month alternative at this position (regex alternation order);
no month name is a prefix of another, so at most one can match textually. -/
def monthFind : List Line → Line → Option Line
  | [], _ => none
  | m :: ms, l =>
    if startsWithL m l then
      let r := l.drop m.length
      let ws := r.takeWhile isWs
      if !ws.isEmpty then
        match dayTail (r.drop ws.length) with
        | some t => some (m ++ ws ++ t)
        | none => monthFind ms l
      else monthFind ms l
    else monthFind ms l

/-- One anchored attempt of the written-date regex
`\b(January|…|December)\s+\d{1,2},?\s+\d{4}\b`; returns `group(0)`. -/
def writtenAt (prev : Option Char) (l : Line) : Option Line :=
  if boundaryBefore prev then monthFind monthNames l else none

/-- `re.search` for the written-date pattern: leftmost match. -/
def writtenSearch : Option Char → Line → Option Line
  | _, [] => none
  | prev, c :: rest =>
    match writtenAt prev (c :: rest) with
    | some d => some d
    | none => writtenSearch (some c) rest

def writtenLine (l : Line) : Option Line := writtenSearch none l

/-- First line (in order) on which `f` finds a match. -/
def firstHit (f : Line → Option Line) : List Line → Option Line
  | [] => none
  | l :: ls =>
    match f l with
    | some d => some d
    | none => firstHit f ls

/-- `detect_date` from `parser.py`: the two sequential scan loops over the
head lines, then the mtime fallback (the formatted mtime string is passed
in, the one filesystem side channel of the core). -/
def detect_date (head : List Line) (mtimeDate : Line) : Line :=
  match firstHit isoLine head with
  | some d => d
  | none =>
    match firstHit writtenLine head with
    | some d => d
    | none => mtimeDate

/-! ### Invariant predicates used by the theorems -/

/-- A line whose first and last characters (when present) are not
whitespace.  These are exactly the fixed points of `strip`. -/
def edgeOk (l : Line) : Prop :=
  (∀ c, l.head? = some c → isWs c = false) ∧
  (∀ c, l.getLast? = some c → isWs c = false)

/-- The invariant of fragments held in the `_paragraphize` accumulator:
non-empty, whitespace-trimmed, and not the `"---"` divider (divider lines
never enter the accumulator). -/
def goodFrag (f : Line) : Prop := f ≠ [] ∧ edgeOk f ∧ f ≠ dashes

/-- Invariant of every assembled block: its opening type can start a block,
tool-output/progress lines appear only in blocks opened by a `ToolCall`
line, and every stored line was classified as the opener, a continuation,
or tool output/progress. -/
def blockInvA (b : BlockA) : Prop :=
  isOpening b.lt = true ∧
  ∀ x ∈ b.lines,
    ((x.1 = LineType.TOOL_OUTPUT ∨ x.1 = LineType.PROGRESS) →
      b.lt = LineType.TOOL_CALL) ∧
    (x.1 = b.lt ∨ x.1 = LineType.CONTINUATION ∨ x.1 = LineType.TOOL_OUTPUT ∨
      x.1 = LineType.PROGRESS)

/-! ### Concrete sample inputs used by witness statements -/

def labelA : Line := String.toList "Assistant"

def labelU : Line := String.toList "User"

def sampleUserLines : List Line := [String.toList "❯ hi"]

def sampleUserTurn : Turn := ⟨Speaker.user, [String.toList "hi"], String.toList "User"⟩

def noiseLines : List Line := [String.toList "● Bash(ls)", String.toList "  ⎿ out"]

def noiseBlockA : BlockA :=
  ⟨LineType.TOOL_CALL,
   [(LineType.TOOL_CALL, String.toList "Bash(ls)"),
    (LineType.TOOL_OUTPUT, String.toList "  ⎿ out")]⟩

def noiseBlock : Block := ⟨LineType.TOOL_CALL, [String.toList "Bash(ls)"]⟩

def dashBlock : Block :=
  ⟨LineType.ASST_TURN, [String.toList "a", String.toList "---", String.toList "b"]⟩

def ctrlLine : Line := String.toList "● ctrl+o to expand"

def dateLine : Line := String.toList "Discussed on 2024-03-07 at standup"

end Convo

namespace Convo

/-! ### Lemmas: `strip` and its fixed points -/

theorem dropWhile_eq_self_of (p : Char → Bool) (l : Line)
    (h : ∀ c, l.head? = some c → p c = false) : l.dropWhile p = l := by
  cases l with
  | nil => rfl
  | cons a as =>
    rw [List.dropWhile_cons_of_neg]
    simp [h a rfl]

theorem stripLeft_eq_self (l : Line)
    (h : ∀ c, l.head? = some c → isWs c = false) : stripLeft l = l :=
  dropWhile_eq_self_of _ _ h

theorem stripRight_eq_self (l : Line)
    (h : ∀ c, l.getLast? = some c → isWs c = false) : stripRight l = l := by
  unfold stripRight
  rw [dropWhile_eq_self_of isWs l.reverse (by simpa using h), List.reverse_reverse]

theorem strip_eq_self_of_edgeOk (l : Line) (h : edgeOk l) : strip l = l := by
  unfold strip
  rw [stripLeft_eq_self l h.1, stripRight_eq_self l h.2]

theorem head?_dropWhile_ws (l : Line) :
    ∀ c, (l.dropWhile isWs).head? = some c → isWs c = false := by
  intro c hc
  have h := List.head?_dropWhile_not isWs l
  rw [hc] at h
  exact h

/-- `stripRight` is a prefix of its argument, made explicit. -/
theorem stripRight_append (l : Line) :
    l = stripRight l ++ (l.reverse.takeWhile isWs).reverse := by
  conv_lhs => rw [← l.reverse_reverse,
    ← List.takeWhile_append_dropWhile (p := isWs) (l := l.reverse)]
  rw [List.reverse_append]
  rfl

theorem head?_stripRight (l : Line) (c : Char)
    (h : (stripRight l).head? = some c) : l.head? = some c := by
  rw [stripRight_append l, List.head?_append, h]
  rfl

theorem getLast?_stripRight (l : Line) :
    ∀ c, (stripRight l).getLast? = some c → isWs c = false := by
  intro c hc
  unfold stripRight at hc
  rw [List.getLast?_reverse] at hc
  exact head?_dropWhile_ws _ c hc

theorem strip_edgeOk (l : Line) : edgeOk (strip l) := by
  constructor
  · intro c hc
    exact head?_dropWhile_ws l c (head?_stripRight (stripLeft l) c hc)
  · intro c hc
    exact getLast?_stripRight (stripLeft l) c hc

theorem strip_nil : strip [] = [] := rfl

/-! ### Lemmas: `joinSp` -/

theorem joinSp_cons_cons (f g : Line) (fs : List Line) :
    joinSp (f :: g :: fs) = f ++ ' ' :: joinSp (g :: fs) := rfl

theorem joinSp_head? (f : Line) (fs : List Line) (hf : f ≠ []) :
    (joinSp (f :: fs)).head? = f.head? := by
  cases fs with
  | nil => rfl
  | cons g gs =>
    rw [joinSp_cons_cons]
    cases f with
    | nil => exact absurd rfl hf
    | cons a as => rfl

theorem joinSp_ne_nil (f : Line) (fs : List Line) (hf : f ≠ []) :
    joinSp (f :: fs) ≠ [] := by
  intro h
  have h0 := joinSp_head? f fs hf
  rw [h] at h0
  cases f with
  | nil => exact hf rfl
  | cons a as => exact Option.noConfusion h0

theorem joinSp_getLast? (fs : List Line) (f : Line)
    (h : ∀ x ∈ f :: fs, x ≠ ([] : Line)) :
    ∃ g ∈ f :: fs, (joinSp (f :: fs)).getLast? = g.getLast? := by
  induction fs generalizing f with
  | nil => exact ⟨f, by simp, rfl⟩
  | cons g gs ih =>
    obtain ⟨x, hx, heq⟩ := ih g (fun x hx => h x (by simp [List.mem_cons] at hx ⊢; tauto))
    refine ⟨x, by simp [List.mem_cons] at hx ⊢; tauto, ?_⟩
    rw [joinSp_cons_cons, List.getLast?_append_of_ne_nil, ← heq]
    · show (' ' :: joinSp (g :: gs)).getLast? = (joinSp (g :: gs)).getLast?
      have hg : joinSp (g :: gs) ≠ [] :=
        joinSp_ne_nil g gs (h g (by simp))
      show ([' '] ++ joinSp (g :: gs)).getLast? = (joinSp (g :: gs)).getLast?
      rw [List.getLast?_append_of_ne_nil _ hg]
    · exact List.cons_ne_nil _ _

theorem joinSp_mem_space (f g : Line) (fs : List Line) :
    ' ' ∈ joinSp (f :: g :: fs) := by
  rw [joinSp_cons_cons]
  exact List.mem_append.mpr (Or.inr (List.mem_cons_self _ _))

/-! ### Lemmas: the `paraGo` accumulator invariant -/

theorem joinSp_edgeOk (f : Line) (fs : List Line)
    (h : ∀ x ∈ f :: fs, x ≠ ([] : Line) ∧ edgeOk x) : edgeOk (joinSp (f :: fs)) := by
  constructor
  · intro c hc
    rw [joinSp_head? f fs (h f (by simp)).1] at hc
    exact (h f (by simp)).2.1 c hc
  · intro c hc
    obtain ⟨g, hg, heq⟩ := joinSp_getLast? fs f (fun x hx => (h x hx).1)
    rw [heq] at hc
    exact (h g hg).2.2 c hc

theorem joinSp_ne_dashes (f : Line) (fs : List Line)
    (h : ∀ x ∈ f :: fs, goodFrag x) : joinSp (f :: fs) ≠ dashes := by
  cases fs with
  | nil => exact (h f (by simp)).2.2
  | cons g gs =>
    intro hd
    have hsp : ' ' ∈ joinSp (f :: g :: gs) := joinSp_mem_space f g gs
    rw [hd] at hsp
    exact absurd hsp (by decide)

theorem isEmpty_false_of_ne {α : Type} (l : List α) (h : l ≠ []) :
    l.isEmpty = false := by
  cases l with
  | nil => exact absurd rfl h
  | cons a as => rfl

theorem paraGo_nil (cur : List Line) :
    paraGo cur [] = if cur.isEmpty then [] else [joinSp cur] := rfl

theorem paraGo_cons_blank (cur : List Line) (l : Line) (ls : List Line)
    (h : (strip l).isEmpty = true) :
    paraGo cur (l :: ls) =
      (if cur.isEmpty then [] else [joinSp cur]) ++ paraGo [] ls := by
  simp [paraGo, h]

theorem paraGo_cons_dash (cur : List Line) (l : Line) (ls : List Line)
    (_h1 : (strip l).isEmpty = false) (h2 : strip l = dashes) :
    paraGo cur (l :: ls) =
      (if cur.isEmpty then [] else [joinSp cur]) ++ dashes :: paraGo [] ls := by
  simp [paraGo, h2]
  decide

theorem paraGo_cons_text (cur : List Line) (l : Line) (ls : List Line)
    (h1 : (strip l).isEmpty = false) (h2 : strip l ≠ dashes) :
    paraGo cur (l :: ls) = paraGo (cur ++ [strip l]) ls := by
  simp [paraGo, h1, h2]

/-- A flushed accumulator of good fragments yields a `joinSp` paragraph. -/
theorem flush_mem (cur : List Line) (hcur : ∀ f ∈ cur, goodFrag f) (p : Line)
    (hp : p ∈ (if cur.isEmpty then ([] : List Line) else [joinSp cur])) :
    ∃ f fs, (∀ x ∈ f :: fs, goodFrag x) ∧ p = joinSp (f :: fs) := by
  by_cases hc : cur.isEmpty
  · simp [hc] at hp
  · rw [if_neg hc] at hp
    have hp' : p = joinSp cur := by simpa using hp
    cases cur with
    | nil => simp at hc
    | cons f fs => exact ⟨f, fs, hcur, hp'⟩

/-- Every paragraph `paraGo` emits is either the literal divider or a
space-join of good fragments. -/
theorem paraGo_mem (raws : List Line) :
    ∀ cur, (∀ f ∈ cur, goodFrag f) →
      ∀ p ∈ paraGo cur raws,
        p = dashes ∨ ∃ f fs, (∀ x ∈ f :: fs, goodFrag x) ∧ p = joinSp (f :: fs) := by
  induction raws with
  | nil =>
    intro cur hcur p hp
    rw [paraGo_nil] at hp
    exact Or.inr (flush_mem cur hcur p hp)
  | cons l ls ih =>
    intro cur hcur p hp
    by_cases hb : (strip l).isEmpty = true
    · rw [paraGo_cons_blank cur l ls hb] at hp
      rcases List.mem_append.mp hp with h | h
      · exact Or.inr (flush_mem cur hcur p h)
      · exact ih [] (by simp) p h
    · have hb' : (strip l).isEmpty = false := eq_false_of_ne_true hb
      by_cases hd : strip l = dashes
      · rw [paraGo_cons_dash cur l ls hb' hd] at hp
        rcases List.mem_append.mp hp with h | h
        · exact Or.inr (flush_mem cur hcur p h)
        · rcases List.mem_cons.mp h with h' | h'
          · exact Or.inl h'
          · exact ih [] (by simp) p h'
      · rw [paraGo_cons_text cur l ls hb' hd] at hp
        refine ih (cur ++ [strip l]) ?_ p hp
        intro f hf
        rcases List.mem_append.mp hf with h | h
        · exact hcur f h
        · have : f = strip l := by simpa using h
          subst this
          refine ⟨?_, strip_edgeOk l, hd⟩
          intro hnil
          rw [hnil] at hb'
          exact absurd hb' (by decide)

theorem paraGo_good (raws : List Line) (cur : List Line)
    (hcur : ∀ f ∈ cur, goodFrag f) :
    ∀ p ∈ paraGo cur raws, p ≠ [] ∧ strip p = p := by
  intro p hp
  rcases paraGo_mem raws cur hcur p hp with h | ⟨f, fs, hg, hp'⟩
  · subst h
    exact ⟨by decide, by decide⟩
  · subst hp'
    have hne : ∀ x ∈ f :: fs, x ≠ ([] : Line) ∧ edgeOk x :=
      fun x hx => ⟨(hg x hx).1, (hg x hx).2.1⟩
    exact ⟨joinSp_ne_nil f fs (hne f (by simp)).1,
      strip_eq_self_of_edgeOk _ (joinSp_edgeOk f fs hne)⟩

theorem paragraphize_eq_paraGo (raws : List Line) :
    paragraphize raws = paraGo [] raws := by
  unfold paragraphize
  apply List.filter_eq_self.mpr
  intro p hp
  have h := (paraGo_good raws [] (by simp) p hp).1
  simpa using h

theorem paragraphize_good (raws : List Line) :
    ∀ p ∈ paragraphize raws, p ≠ [] ∧ strip p = p := by
  rw [paragraphize_eq_paraGo]
  exact paraGo_good raws [] (by simp)

/-- Re-feeding already-reflowed paragraphs with blank separator lines
reproduces them. -/
theorem paraGo_refeed (ps : List Line) (h : ∀ p ∈ ps, p ≠ [] ∧ strip p = p) :
    paraGo [] (List.intersperse [] ps) = ps := by
  induction ps with
  | nil => rfl
  | cons p ps ih =>
    have hp := h p (by simp)
    have hne : (strip p).isEmpty = false := by
      rw [hp.2]
      exact isEmpty_false_of_ne p hp.1
    cases ps with
    | nil =>
      by_cases hd : p = dashes
      · rw [show List.intersperse ([] : Line) [p] = [p] from rfl,
          paraGo_cons_dash [] p [] hne (hp.2.trans hd)]
        simp [paraGo, hd]
      · rw [show List.intersperse ([] : Line) [p] = [p] from rfl,
          paraGo_cons_text [] p [] hne (fun hc => hd (hp.2.symm.trans hc))]
        rw [hp.2]
        rfl
    | cons q qs =>
      rw [List.intersperse_cons_cons]
      have hrest := ih (fun x hx => h x (List.mem_cons_of_mem p hx))
      by_cases hd : p = dashes
      · rw [paraGo_cons_dash [] p _ hne (hp.2.trans hd),
          paraGo_cons_blank [] [] _ (by decide), hd]
        simpa using hrest
      · rw [paraGo_cons_text [] p _ hne (fun hc => hd (hp.2.symm.trans hc)),
          List.nil_append,
          paraGo_cons_blank [strip p] [] _ (by decide)]
        rw [hp.2]
        simpa [joinSp] using hrest

/-- A flushed accumulator of good fragments never emits the divider. -/
theorem flush_countP (cur : List Line) (hcur : ∀ f ∈ cur, goodFrag f) :
    (if cur.isEmpty then ([] : List Line) else [joinSp cur]).countP
      (fun p => decide (p = dashes)) = 0 := by
  by_cases hc : cur.isEmpty
  · simp [hc]
  · rw [if_neg hc]
    cases cur with
    | nil => simp at hc
    | cons f fs => simp [joinSp_ne_dashes f fs hcur]

/-- The number of divider paragraphs emitted equals the number of raw
lines whose trimmed content is exactly the divider. -/
theorem paraGo_countDash (raws : List Line) :
    ∀ cur, (∀ f ∈ cur, goodFrag f) →
      (paraGo cur raws).countP (fun p => decide (p = dashes)) =
        raws.countP (fun l => decide (strip l = dashes)) := by
  induction raws with
  | nil =>
    intro cur hcur
    rw [paraGo_nil, flush_countP cur hcur, List.countP_nil]
  | cons l ls ih =>
    intro cur hcur
    by_cases hb : (strip l).isEmpty = true
    · have h2 : strip l ≠ dashes := by
        intro hc
        rw [hc] at hb
        exact absurd hb (by decide)
      rw [paraGo_cons_blank cur l ls hb, List.countP_append, flush_countP cur hcur,
        ih [] (by simp), List.countP_cons]
      simp [h2]
    · have hb' : (strip l).isEmpty = false := eq_false_of_ne_true hb
      by_cases hd : strip l = dashes
      · rw [paraGo_cons_dash cur l ls hb' hd, List.countP_append, flush_countP cur hcur,
          List.countP_cons, List.countP_cons, ih [] (by simp)]
        simp [hd]
      · rw [paraGo_cons_text cur l ls hb' hd, List.countP_cons]
        rw [ih (cur ++ [strip l]) ?_]
        · simp [hd]
        · intro f hf
          rcases List.mem_append.mp hf with h | h
          · exact hcur f h
          · have : f = strip l := by simpa using h
            subst this
            refine ⟨?_, strip_edgeOk l, hd⟩
            intro hnil
            rw [hnil] at hb'
            exact absurd hb' (by decide)

theorem paragraphize_countDash (raws : List Line) :
    (paragraphize raws).countP (fun p => decide (p = dashes)) =
      raws.countP (fun l => decide (strip l = dashes)) := by
  rw [paragraphize_eq_paraGo]
  exact paraGo_countDash raws [] (by simp)

/-! ### Lemmas: `LineType` case facts -/

theorem opening_not_output_progress (lt : LineType) (h : isOpening lt = true) :
    lt ≠ LineType.TOOL_OUTPUT ∧ lt ≠ LineType.PROGRESS := by
  cases lt <;> simp_all [isOpening]

theorem opening_noise_eq_tool (lt : LineType) (h1 : isOpening lt = true)
    (h2 : isNoise lt = true) : lt = LineType.TOOL_CALL := by
  cases lt <;> simp_all [isOpening, isNoise]

theorem not_noise_cases (lt : LineType) (h : isNoise lt = false) :
    lt ≠ LineType.TOOL_CALL ∧ lt ≠ LineType.TOOL_OUTPUT ∧ lt ≠ LineType.PROGRESS := by
  cases lt <;> simp_all [isNoise]

theorem noise_ne_user (lt : LineType) (h : isNoise lt = true) :
    lt ≠ LineType.USER_TURN := by
  cases lt <;> simp_all [isNoise]

theorem cont_of_not_opening_not_noiseline (lt : LineType)
    (h1 : isOpening lt = false)
    (h2 : (lt = LineType.TOOL_OUTPUT || lt = LineType.PROGRESS) = false) :
    lt = LineType.CONTINUATION := by
  cases lt <;> simp_all [isOpening]

/-! ### Lemmas: the annotated assembler refines the real one -/

theorem assembleAGo_erase (ls : List Line) :
    ∀ cur : Option BlockA,
      assembleGo (Option.map eraseA cur) ls = List.map eraseA (assembleAGo cur ls) := by
  induction ls with
  | nil =>
    intro cur
    cases cur <;> rfl
  | cons l ls ih =>
    intro cur
    by_cases h1 : isOpening (classify l) = true
    · have e1 : assembleGo (Option.map eraseA cur) (l :: ls) =
          (Option.map eraseA cur).toList ++
            assembleGo (some ⟨classify l, [l.drop 2]⟩) ls := by
        simp [assembleGo, h1]
      have e2 : assembleAGo cur (l :: ls) =
          cur.toList ++ assembleAGo (some ⟨classify l, [(classify l, l.drop 2)]⟩) ls := by
        simp [assembleAGo, h1]
      rw [e1, e2, List.map_append]
      congr 1
      · cases cur <;> rfl
      · have h := ih (some ⟨classify l, [(classify l, l.drop 2)]⟩)
        simpa [eraseA] using h
    · by_cases h2 : (classify l = LineType.TOOL_OUTPUT ||
          classify l = LineType.PROGRESS) = true
      · cases cur with
        | none =>
          have e1 : assembleGo none (l :: ls) = assembleGo none ls := by
            simp [assembleGo, h1, h2]
          have e2 : assembleAGo none (l :: ls) = assembleAGo none ls := by
            simp [assembleAGo, h1, h2]
          rw [show Option.map eraseA none = none from rfl] at *
          rw [e1, e2]
          have h := ih none
          simpa using h
        | some b =>
          by_cases h3 : isNoise b.lt = true
          · have e1 : assembleGo (some (eraseA b)) (l :: ls) =
                assembleGo (some ⟨b.lt, b.lines.map Prod.snd ++ [l]⟩) ls := by
              simp [assembleGo, h1, h2, h3, eraseA]
            have e2 : assembleAGo (some b) (l :: ls) =
                assembleAGo (some ⟨b.lt, b.lines ++ [(classify l, l)]⟩) ls := by
              simp [assembleAGo, h1, h2, h3]
            rw [show Option.map eraseA (some b) = some (eraseA b) from rfl, e1, e2]
            have h := ih (some ⟨b.lt, b.lines ++ [(classify l, l)]⟩)
            simpa [eraseA] using h
          · have e1 : assembleGo (some (eraseA b)) (l :: ls) =
                assembleGo (some (eraseA b)) ls := by
              simp [assembleGo, h1, h2, h3, eraseA]
            have e2 : assembleAGo (some b) (l :: ls) = assembleAGo (some b) ls := by
              simp [assembleAGo, h1, h2, h3]
            rw [show Option.map eraseA (some b) = some (eraseA b) from rfl, e1, e2]
            have h := ih (some b)
            simpa using h
      · cases cur with
        | none =>
          have e1 : assembleGo none (l :: ls) = assembleGo none ls := by
            simp [assembleGo, h1, h2]
          have e2 : assembleAGo none (l :: ls) = assembleAGo none ls := by
            simp [assembleAGo, h1, h2]
          rw [show Option.map eraseA none = none from rfl] at *
          rw [e1, e2]
          have h := ih none
          simpa using h
        | some b =>
          have e1 : assembleGo (some (eraseA b)) (l :: ls) =
              assembleGo (some ⟨b.lt, b.lines.map Prod.snd ++ [l]⟩) ls := by
            simp [assembleGo, h1, h2, eraseA]
          have e2 : assembleAGo (some b) (l :: ls) =
              assembleAGo (some ⟨b.lt, b.lines ++ [(classify l, l)]⟩) ls := by
            simp [assembleAGo, h1, h2]
          rw [show Option.map eraseA (some b) = some (eraseA b) from rfl, e1, e2]
          have h := ih (some ⟨b.lt, b.lines ++ [(classify l, l)]⟩)
          simpa [eraseA] using h

theorem assemble_eq_erase (lines : List Line) :
    assemble lines = List.map eraseA (assembleA lines) := by
  have h := assembleAGo_erase lines none
  simpa [assemble, assembleA] using h

/-! ### Lemmas: block invariant of the annotated assembler -/

theorem assembleAGo_inv (ls : List Line) :
    ∀ cur : Option BlockA, (∀ b, cur = some b → blockInvA b) →
      ∀ b ∈ assembleAGo cur ls, blockInvA b := by
  induction ls with
  | nil =>
    intro cur hcur b hb
    cases cur with
    | none => simp [assembleAGo] at hb
    | some c =>
      have hbc : b = c := by simpa [assembleAGo] using hb
      subst hbc
      exact hcur b rfl
  | cons l ls ih =>
    intro cur hcur b hb
    by_cases h1 : isOpening (classify l) = true
    · rw [show assembleAGo cur (l :: ls) =
          cur.toList ++ assembleAGo (some ⟨classify l, [(classify l, l.drop 2)]⟩) ls
          from by simp [assembleAGo, h1]] at hb
      rcases List.mem_append.mp hb with h | h
      · cases cur with
        | none => simp at h
        | some c =>
          have hbc : b = c := by simpa using h
          subst hbc
          exact hcur b rfl
      · refine ih _ ?_ b h
        intro c hc
        injection hc with hc
        subst hc
        refine ⟨h1, ?_⟩
        intro x hx
        have hx' : x = (classify l, l.drop 2) := by simpa using hx
        subst hx'
        constructor
        · intro hor
          rcases hor with h' | h'
          · exact absurd h' (opening_not_output_progress _ h1).1
          · exact absurd h' (opening_not_output_progress _ h1).2
        · exact Or.inl rfl
    · by_cases h2 : (classify l = LineType.TOOL_OUTPUT ||
          classify l = LineType.PROGRESS) = true
      · cases cur with
        | none =>
          rw [show assembleAGo none (l :: ls) = assembleAGo none ls from by
            simp [assembleAGo, h1, h2]] at hb
          exact ih none (by simp) b hb
        | some c =>
          by_cases h3 : isNoise c.lt = true
          · rw [show assembleAGo (some c) (l :: ls) =
                assembleAGo (some ⟨c.lt, c.lines ++ [(classify l, l)]⟩) ls from by
              simp [assembleAGo, h1, h2, h3]] at hb
            refine ih _ ?_ b hb
            intro d hd
            injection hd with hd
            subst hd
            have hc := hcur c rfl
            refine ⟨hc.1, ?_⟩
            intro x hx
            rcases List.mem_append.mp hx with h' | h'
            · exact hc.2 x h'
            · have hx' : x = (classify l, l) := by simpa using h'
              subst hx'
              constructor
              · intro _
                exact opening_noise_eq_tool c.lt hc.1 h3
              · rcases Bool.or_eq_true_iff.mp h2 with h' | h'
                · exact Or.inr (Or.inr (Or.inl (by simpa using h')))
                · exact Or.inr (Or.inr (Or.inr (by simpa using h')))
          · rw [show assembleAGo (some c) (l :: ls) = assembleAGo (some c) ls from by
              simp [assembleAGo, h1, h2, h3]] at hb
            exact ih (some c) hcur b hb
      · have hcont : classify l = LineType.CONTINUATION :=
          cont_of_not_opening_not_noiseline _ (eq_false_of_ne_true h1)
            (eq_false_of_ne_true h2)
        cases cur with
        | none =>
          rw [show assembleAGo none (l :: ls) = assembleAGo none ls from by
            simp [assembleAGo, h1, h2]] at hb
          exact ih none (by simp) b hb
        | some c =>
          rw [show assembleAGo (some c) (l :: ls) =
              assembleAGo (some ⟨c.lt, c.lines ++ [(classify l, l)]⟩) ls from by
            simp [assembleAGo, h1, h2]] at hb
          refine ih _ ?_ b hb
          intro d hd
          injection hd with hd
          subst hd
          have hc := hcur c rfl
          refine ⟨hc.1, ?_⟩
          intro x hx
          rcases List.mem_append.mp hx with h' | h'
          · exact hc.2 x h'
          · have hx' : x = (classify l, l) := by simpa using h'
            subst hx'
            constructor
            · intro hor
              have h4 : classify l = LineType.TOOL_OUTPUT ∨
                  classify l = LineType.PROGRESS := by simpa using hor
              rw [hcont] at h4
              rcases h4 with h' | h' <;> exact absurd h' (by decide)
            · exact Or.inr (Or.inl hcont)

theorem assembleA_inv (lines : List Line) :
    ∀ b ∈ assembleA lines, blockInvA b :=
  assembleAGo_inv lines none (by simp)

/-! ### Lemmas: `mkTurn` and `parse` -/

theorem mkTurn_eq_some {al ul : Line} {v : Bool} {b : Block} {t : Turn}
    (h : mkTurn al ul v b = some t) :
    (isNoise b.lt && !v) = false ∧
    (paragraphize b.raw_lines).isEmpty = false ∧
    t.paragraphs = paragraphize b.raw_lines ∧
    t.speaker = (if b.lt = LineType.USER_TURN then Speaker.user else Speaker.assistant) ∧
    t.speaker_label = (if b.lt = LineType.USER_TURN then ul else al) := by
  unfold mkTurn at h
  by_cases h1 : (isNoise b.lt && !v) = true
  · rw [if_pos h1] at h
    exact absurd h (by simp)
  · rw [if_neg h1] at h
    by_cases h2 : (paragraphize b.raw_lines).isEmpty = true
    · rw [if_pos h2] at h
      exact absurd h (by simp)
    · rw [if_neg h2] at h
      have ht := Option.some.inj h
      refine ⟨eq_false_of_ne_true h1, eq_false_of_ne_true h2, ?_, ?_, ?_⟩
      · rw [← ht]
      · rw [← ht]
      · rw [← ht]
        by_cases hu : b.lt = LineType.USER_TURN <;> simp [hu]

theorem mkTurn_false_to_true {al ul : Line} {b : Block} {t : Turn}
    (h : mkTurn al ul false b = some t) : mkTurn al ul true b = some t := by
  unfold mkTurn at h ⊢
  by_cases h1 : isNoise b.lt = true
  · rw [if_pos (by simp [h1])] at h
    exact absurd h (by simp)
  · rw [if_neg (by simp [h1])] at h
    rw [if_neg (by simp)]
    exact h

theorem mkTurn_false_noise_none {al ul : Line} {b : Block}
    (h : isNoise b.lt = true) : mkTurn al ul false b = none := by
  unfold mkTurn
  rw [if_pos (by simp [h])]

theorem filterMap_sublist {α β : Type} (f g : α → Option β)
    (hfg : ∀ a b, f a = some b → g a = some b) :
    ∀ l : List α, (l.filterMap f).Sublist (l.filterMap g)
  | [] => by simp
  | a :: l => by
    rw [List.filterMap_cons, List.filterMap_cons]
    cases hf : f a with
    | none =>
      cases hg : g a with
      | none => exact filterMap_sublist f g hfg l
      | some b => exact (filterMap_sublist f g hfg l).cons b
    | some b =>
      rw [hfg a b hf]
      exact (filterMap_sublist f g hfg l).cons₂ b

theorem parse_false_sublist_true (lines : List Line) (al ul : Line) :
    (parse lines al ul false).Sublist (parse lines al ul true) :=
  filterMap_sublist _ _ (fun _ _ h => mkTurn_false_to_true h) (assemble lines)

theorem mem_parse (lines : List Line) (al ul : Line) (v : Bool) (t : Turn)
    (ht : t ∈ parse lines al ul v) :
    ∃ bA ∈ assembleA lines, mkTurn al ul v (eraseA bA) = some t := by
  unfold parse at ht
  rw [assemble_eq_erase] at ht
  obtain ⟨b, hb, hsome⟩ := List.mem_filterMap.mp ht
  obtain ⟨bA, hbA, rfl⟩ := List.mem_map.mp hb
  exact ⟨bA, hbA, hsome⟩

end Convo

namespace Convo

/-! ### Lemmas: the classifier on marked lines -/

theorem classify_bullet_eq (rest : Line) :
    classify ('●' :: ' ' :: rest) =
      (if toolCallMatch ('●' :: ' ' :: rest) ||
          containsSub ctrlO (lowerL ('●' :: ' ' :: rest)) then LineType.TOOL_CALL
       else LineType.ASST_TURN) := by
  unfold classify
  rw [show startsWithL ('❯' :: [' ']) ('●' :: ' ' :: rest) = false from rfl,
    show startsWithL ('●' :: [' ']) ('●' :: ' ' :: rest) = true from rfl]
  simp

theorem classify_prompt_eq (l : Line) (h : startsWithL ('❯' :: [' ']) l = true) :
    classify l =
      (if slashCmdMatch l then LineType.TOOL_CALL else LineType.USER_TURN) := by
  unfold classify
  rw [h]
  simp

theorem toolCallMatch_lower_head (c : Char) (rest : Line) (hc : isLowerC c = true) :
    toolCallMatch ('●' :: ' ' :: c :: rest) = false := by
  have hcR : ('R' : Char) ≠ c := by
    intro h
    rw [← h] at hc
    exact absurd hc (by decide)
  have hcS : ('S' : Char) ≠ c := by
    intro h
    rw [← h] at hc
    exact absurd hc (by decide)
  have hU : isUpperC c = false := by
    cases hup : isUpperC c
    · rfl
    · exfalso
      simp only [isUpperC, Bool.and_eq_true, decide_eq_true_eq] at hup
      simp only [isLowerC, Bool.and_eq_true, decide_eq_true_eq] at hc
      exact absurd (le_trans hc.1 hup.2) (by decide)
  show (camelParen (c :: rest) || readMatch (c :: rest) || searchedMatch (c :: rest)) = false
  rw [show camelParen (c :: rest) =
      (isUpperC c && decide (1 ≤ (rest.takeWhile isAlphaC).length) &&
        ((rest.drop (rest.takeWhile isAlphaC).length).head? == some '(')) from rfl, hU]
  simp [readMatch, searchedMatch, startsWithL, fun h => hcR h, fun h => hcS h]

end Convo

namespace Convo

/-- Claim C1 is refuted at this input: the line `"● ctrl+o to expand"`
begins with the bullet marker followed by the lowercase word `ctrl`, yet
the classifier returns `ToolCall` (the case-insensitive `"ctrl+o"`
substring rule fires), not `AssistantTurn`. -/
theorem claim1_counterexample :
    ctrlLine = '●' :: ' ' :: (String.toList "ctrl" ++ String.toList "+o to expand") ∧
    String.toList "ctrl" ≠ [] ∧
    (∀ c ∈ String.toList "ctrl", isLowerC c = true) ∧
    classify ctrlLine = LineType.TOOL_CALL ∧
    classify ctrlLine ≠ LineType.ASST_TURN := by
  refine ⟨rfl, by decide, by decide, ?_, ?_⟩ <;> decide

/-- Claim C1 (amended): a line beginning with the bullet marker followed by
a lowercase word is classified `AssistantTurn`, never `ToolCall`, provided
the line does not contain the case-insensitive substring `"ctrl+o"`. -/
theorem claim1_bullet_lowercase_assistant (w r : Line) (hw : w ≠ [])
    (hlow : ∀ c ∈ w, isLowerC c = true)
    (hct : containsSub ctrlO (lowerL ('●' :: ' ' :: (w ++ r))) = false) :
    classify ('●' :: ' ' :: (w ++ r)) = LineType.ASST_TURN := by
  cases w with
  | nil => exact absurd rfl hw
  | cons c w' =>
    rw [List.cons_append] at hct ⊢
    rw [classify_bullet_eq, toolCallMatch_lower_head c (w' ++ r) (hlow c (by simp)), hct]
    rfl

/-- Witness for the amended C1 at the concrete line `"● ok then"`. -/
theorem claim1_witness :
    classify ('●' :: ' ' :: (String.toList "ok" ++ String.toList " then")) =
      LineType.ASST_TURN :=
  claim1_bullet_lowercase_assistant (String.toList "ok") (String.toList " then")
    (by decide) (by decide) (by decide)

/-- Claim C2 is refuted at the raw-line list `["a", "", "b"]`: reflow
yields the paragraphs `["a", "b"]`, and feeding that paragraph sequence
back into reflow (each paragraph as one input line) merges them into the
single paragraph `["a b"]`, not the same sequence. -/
theorem claim2_counterexample :
    paragraphize (paragraphize [String.toList "a", [], String.toList "b"]) ≠
      paragraphize [String.toList "a", [], String.toList "b"] := by
  decide

/-- Claim C2 (amended): reflow is idempotent on its output when the
reflowed paragraphs are re-fed as input lines separated by blank lines
(re-feeding them without separators merges adjacent non-divider
paragraphs). -/
theorem claim2_reflow_idempotent (raws : List Line) :
    paragraphize (List.intersperse [] (paragraphize raws)) = paragraphize raws := by
  have hgood := paragraphize_good raws
  rw [paragraphize, paraGo_refeed (paragraphize raws) hgood]
  apply List.filter_eq_self.mpr
  intro p hp
  have h := (hgood p hp).1
  simpa using h

/-- Claim C9: parsing empty input returns the empty turn sequence.  In
this embedding `parse` is a total function on arbitrary line lists, so no
input can fault; the graceful-degradation half of the claim holds by
construction. -/
theorem claim9_empty_input (al ul : Line) (v : Bool) : parse [] al ul v = [] := rfl

theorem slashCmdMatch_iff (l : Line) :
    slashCmdMatch l = true ↔
      ∃ c rest, l = '❯' :: ' ' :: '/' :: c :: rest ∧ isWordC c = true := by
  constructor
  · intro h
    rcases l with _ | ⟨c1, _ | ⟨c2, _ | ⟨c3, _ | ⟨c4, rest⟩⟩⟩⟩ <;>
      simp [slashCmdMatch, startsWithL, headCheck] at h
    obtain ⟨⟨h1, h2, h3⟩, h4⟩ := h
    exact ⟨c4, rest, by rw [← h1, ← h2, ← h3], h4⟩
  · rintro ⟨c, rest, rfl, hc⟩
    simp [slashCmdMatch, startsWithL, headCheck, hc]

/-- Claim C8: a line beginning with the prompt marker immediately followed
by `/` and a word character is classified `ToolCall`; every other line
beginning with the prompt marker is classified `UserTurn`. -/
theorem claim8_slash_command_classification :
    (∀ (c : Char) (rest : Line), isWordC c = true →
      classify ('❯' :: ' ' :: '/' :: c :: rest) = LineType.TOOL_CALL) ∧
    (∀ l : Line, startsWithL ('❯' :: [' ']) l = true →
      (¬ ∃ c rest, l = '❯' :: ' ' :: '/' :: c :: rest ∧ isWordC c = true) →
      classify l = LineType.USER_TURN) := by
  constructor
  · intro c rest hc
    rw [classify_prompt_eq ('❯' :: ' ' :: '/' :: c :: rest) (by rfl),
      (slashCmdMatch_iff ('❯' :: ' ' :: '/' :: c :: rest)).mpr ⟨c, rest, rfl, hc⟩]
    rfl
  · intro l hl hne
    rw [classify_prompt_eq l hl]
    have hsm : slashCmdMatch l = false := by
      cases h : slashCmdMatch l
      · rfl
      · exact absurd ((slashCmdMatch_iff l).mp h) hne
    rw [hsm]
    rfl

/-- Witness for C8 at `"❯ /help"` (slash command) and `"❯ hello"`
(ordinary user input). -/
theorem claim8_witness :
    classify (String.toList "❯ /help") = LineType.TOOL_CALL ∧
    classify (String.toList "❯ hello") = LineType.USER_TURN := by
  constructor
  · exact claim8_slash_command_classification.1 'h' (String.toList "elp") (by decide)
  · refine claim8_slash_command_classification.2 (String.toList "❯ hello") (by decide) ?_
    rintro ⟨c, rest, heq, -⟩
    have heq' : ('❯' :: ' ' :: 'h' :: 'e' :: 'l' :: 'l' :: 'o' :: ([] : Line)) =
        '❯' :: ' ' :: '/' :: c :: rest := heq
    injection heq' with h1 heq'
    injection heq' with h2 heq'
    injection heq' with h3 heq'
    exact absurd h3 (by decide)

/-- Claim C3: with `verbose = false`, every parsed Turn originates from an
assembled block all of whose recorded lines were classified as non-noise
(the opener or continuations), and its paragraphs are the reflow of
exactly those lines — so no paragraph contains content from a line
classified `ToolCall`, `ToolOutput`, or `Progress`. -/
theorem claim3_nonverbose_no_noise_content (lines : List Line) (al ul : Line)
    (t : Turn) (ht : t ∈ parse lines al ul false) :
    ∃ bA ∈ assembleA lines,
      (∀ x ∈ bA.lines, x.1 ≠ LineType.TOOL_CALL ∧ x.1 ≠ LineType.TOOL_OUTPUT ∧
        x.1 ≠ LineType.PROGRESS) ∧
      t.paragraphs = paragraphize (bA.lines.map Prod.snd) := by
  obtain ⟨bA, hbA, hsome⟩ := mem_parse lines al ul false t ht
  have hmk := mkTurn_eq_some hsome
  have hnoise : isNoise bA.lt = false := by
    have h := hmk.1
    simpa [eraseA] using h
  have hinv := assembleA_inv lines bA hbA
  have hcases := not_noise_cases bA.lt hnoise
  refine ⟨bA, hbA, ?_, ?_⟩
  · intro x hx
    have hxt := (hinv.2 x hx).1
    have hx' : x.1 = bA.lt ∨ x.1 = LineType.CONTINUATION := by
      rcases (hinv.2 x hx).2 with h | h | h | h
      · exact Or.inl h
      · exact Or.inr h
      · exact absurd (hxt (Or.inl h)) hcases.1
      · exact absurd (hxt (Or.inr h)) hcases.1
    rcases hx' with h | h
    · rw [h]
      exact ⟨hcases.1, hcases.2.1, hcases.2.2⟩
    · rw [h]
      exact ⟨by decide, by decide, by decide⟩
  · have hp := hmk.2.2.1
    simpa [eraseA] using hp

/-- Witness for C3 at the one-line input `"❯ hi"`. -/
theorem claim3_witness :
    ∃ bA ∈ assembleA sampleUserLines,
      (∀ x ∈ bA.lines, x.1 ≠ LineType.TOOL_CALL ∧ x.1 ≠ LineType.TOOL_OUTPUT ∧
        x.1 ≠ LineType.PROGRESS) ∧
      sampleUserTurn.paragraphs = paragraphize (bA.lines.map Prod.snd) :=
  claim3_nonverbose_no_noise_content sampleUserLines labelA labelU sampleUserTurn
    (by decide)

/-- Claim C4: a `ToolOutput` or `Progress` line is stored in a block only
when that block was opened by a `ToolCall` line; consequently, under
either verbose setting, every Turn either derives from a `ToolCall` block
(verbose scaffolding, not conversational content) or from a block holding
no `ToolOutput`/`Progress` line at all. -/
theorem claim4_output_progress_only_tool_blocks (lines : List Line) :
    (∀ b ∈ assembleA lines, ∀ x ∈ b.lines,
      (x.1 = LineType.TOOL_OUTPUT ∨ x.1 = LineType.PROGRESS) →
        b.lt = LineType.TOOL_CALL) ∧
    (∀ (al ul : Line) (verbose : Bool), ∀ t ∈ parse lines al ul verbose,
      ∃ bA ∈ assembleA lines,
        t.paragraphs = paragraphize (bA.lines.map Prod.snd) ∧
        (bA.lt = LineType.TOOL_CALL ∨
          ∀ x ∈ bA.lines, x.1 ≠ LineType.TOOL_OUTPUT ∧ x.1 ≠ LineType.PROGRESS)) := by
  constructor
  · intro b hb x hx
    exact ((assembleA_inv lines b hb).2 x hx).1
  · intro al ul v t ht
    obtain ⟨bA, hbA, hsome⟩ := mem_parse lines al ul v t ht
    have hmk := mkTurn_eq_some hsome
    refine ⟨bA, hbA, by simpa [eraseA] using hmk.2.2.1, ?_⟩
    by_cases htool : bA.lt = LineType.TOOL_CALL
    · exact Or.inl htool
    · refine Or.inr ?_
      intro x hx
      have h1 := ((assembleA_inv lines bA hbA).2 x hx).1
      exact ⟨fun h => htool (h1 (Or.inl h)), fun h => htool (h1 (Or.inr h))⟩

/-- Witness for C4: in the input `["● Bash(ls)", "  ⎿ out"]` the tool
output line is stored in the block opened by the `ToolCall` line. -/
theorem claim4_witness : noiseBlockA.lt = LineType.TOOL_CALL :=
  (claim4_output_progress_only_tool_blocks noiseLines).1 noiseBlockA (by decide)
    (LineType.TOOL_OUTPUT, String.toList "  ⎿ out") (by decide) (Or.inl rfl)

/-- Claim C5: for every input, the verbose parse yields at least as many
Turns as the non-verbose parse. -/
theorem claim5_verbose_turn_count_ge (lines : List Line) (al ul : Line) :
    (parse lines al ul false).length ≤ (parse lines al ul true).length :=
  (parse_false_sublist_true lines al ul).length_le

/-- Claim C6: the non-verbose Turn list is an order-preserving subsequence
of the verbose Turn list (element-wise equal Turns, hence equal speaker,
label, and paragraphs); the Turns verbose mode adds come from noise
blocks, yield nothing non-verbose, and are always assistant-labeled. -/
theorem claim6_nonverbose_sublist_of_verbose (lines : List Line) (al ul : Line) :
    (parse lines al ul false).Sublist (parse lines al ul true) ∧
    (∀ b ∈ assemble lines, isNoise b.lt = true →
      mkTurn al ul false b = none ∧
      ∀ t : Turn, mkTurn al ul true b = some t →
        t.speaker = Speaker.assistant ∧ t.speaker_label = al) := by
  constructor
  · exact parse_false_sublist_true lines al ul
  · intro b _ hnoise
    refine ⟨mkTurn_false_noise_none hnoise, ?_⟩
    intro t ht
    have hmk := mkTurn_eq_some ht
    have hu : b.lt ≠ LineType.USER_TURN := noise_ne_user b.lt hnoise
    constructor
    · rw [hmk.2.2.2.1, if_neg hu]
    · rw [hmk.2.2.2.2, if_neg hu]

/-- Witness for C6 at the one-block noise input `"● Bash(ls)"`. -/
theorem claim6_witness :
    mkTurn labelA labelU false noiseBlock = none ∧
    (⟨Speaker.assistant, [String.toList "Bash(ls)"], labelA⟩ : Turn).speaker =
      Speaker.assistant ∧
    (⟨Speaker.assistant, [String.toList "Bash(ls)"], labelA⟩ : Turn).speaker_label =
      labelA := by
  have h := (claim6_nonverbose_sublist_of_verbose [String.toList "● Bash(ls)"]
    labelA labelU).2 noiseBlock (by decide) (by decide)
  exact ⟨h.1, h.2 _ (by decide)⟩

/-- Claim C7: reflow emits exactly one standalone `"---"` paragraph per
raw line whose trimmed content is `"---"` (the divider is never merged
with adjacent text), and an assistant block containing such a line yields
a Turn whose paragraph sequence contains the literal element `"---"`. -/
theorem claim7_dash_standalone (raws : List Line) (al ul : Line) (b : Block) :
    (paragraphize raws).countP (fun p => decide (p = dashes)) =
      raws.countP (fun l => decide (strip l = dashes)) ∧
    (b.lt = LineType.ASST_TURN → (∃ l ∈ b.raw_lines, strip l = dashes) →
      ∃ t, mkTurn al ul false b = some t ∧ dashes ∈ t.paragraphs) := by
  refine ⟨paragraphize_countDash raws, ?_⟩
  intro hlt hex
  have hcount : 0 < b.raw_lines.countP (fun l => decide (strip l = dashes)) := by
    obtain ⟨l, hl, hs⟩ := hex
    exact List.countP_pos_iff.mpr ⟨l, hl, by simp [hs]⟩
  have hmem : dashes ∈ paragraphize b.raw_lines := by
    have hpos : 0 < (paragraphize b.raw_lines).countP (fun p => decide (p = dashes)) := by
      rw [paragraphize_countDash b.raw_lines]
      exact hcount
    obtain ⟨p, hp, hpd⟩ := List.countP_pos_iff.mp hpos
    have hpd' : p = dashes := by simpa using hpd
    rwa [hpd'] at hp
  have hne : (paragraphize b.raw_lines).isEmpty = false :=
    isEmpty_false_of_ne _ (List.ne_nil_of_mem hmem)
  refine ⟨⟨Speaker.assistant, paragraphize b.raw_lines, al⟩, ?_, hmem⟩
  unfold mkTurn
  rw [hlt]
  rw [if_neg (by decide), if_neg (by simp [hne])]
  rfl

/-- Witness for C7 at an assistant block whose middle line is `"---"`. -/
theorem claim7_witness :
    ∃ t, mkTurn labelA labelU false dashBlock = some t ∧ dashes ∈ t.paragraphs :=
  (claim7_dash_standalone [] labelA labelU dashBlock).2 rfl
    ⟨String.toList "---", by decide, by decide⟩

theorem firstHit_of_prefix_none (f : Line → Option Line) (pre : List Line) (l : Line)
    (post : List Line) (d : Line) (hpre : ∀ x ∈ pre, f x = none)
    (hl : f l = some d) : firstHit f (pre ++ l :: post) = some d := by
  induction pre with
  | nil => simp [firstHit, hl]
  | cons a pre ih =>
    have ha := hpre a (by simp)
    simp only [List.cons_append, firstHit, ha]
    exact ih (fun x hx => hpre x (by simp [hx]))

theorem firstHit_none (f : Line → Option Line) (ls : List Line)
    (h : ∀ l ∈ ls, f l = none) : firstHit f ls = none := by
  induction ls with
  | nil => rfl
  | cons a ls ih =>
    have ha := h a (by simp)
    simp only [firstHit, ha]
    exact ih (fun x hx => h x (by simp [hx]))

/-- Claim C10: `detect_date` returns the first line-scan ISO date hit; if
no head line has one, the first written-date hit; and the mtime fallback
exactly when neither pattern occurs in any head line. -/
theorem claim10_detect_date_cascade (head : List Line) (m : Line) :
    (∀ (pre : List Line) (l : Line) (post : List Line) (d : Line),
      head = pre ++ l :: post → (∀ x ∈ pre, isoLine x = none) →
      isoLine l = some d → detect_date head m = d) ∧
    ((∀ l ∈ head, isoLine l = none) →
      ∀ (pre : List Line) (l : Line) (post : List Line) (d : Line),
        head = pre ++ l :: post → (∀ x ∈ pre, writtenLine x = none) →
        writtenLine l = some d → detect_date head m = d) ∧
    ((∀ l ∈ head, isoLine l = none ∧ writtenLine l = none) →
      detect_date head m = m) := by
  refine ⟨?_, ?_, ?_⟩
  · intro pre l post d hsplit hpre hl
    subst hsplit
    unfold detect_date
    rw [firstHit_of_prefix_none isoLine pre l post d hpre hl]
  · intro hiso pre l post d hsplit hpre hl
    subst hsplit
    unfold detect_date
    rw [firstHit_none isoLine _ hiso,
      firstHit_of_prefix_none writtenLine pre l post d hpre hl]
  · intro h
    unfold detect_date
    rw [firstHit_none isoLine _ (fun l hl => (h l hl).1),
      firstHit_none writtenLine _ (fun l hl => (h l hl).2)]

/-- Witness for C10: a head line carrying an ISO date wins over the
supplied mtime fallback. -/
theorem claim10_witness :
    detect_date [dateLine] (String.toList "1999-01-01") =
      String.toList "2024-03-07" :=
  (claim10_detect_date_cascade [dateLine] (String.toList "1999-01-01")).1
    [] dateLine [] (String.toList "2024-03-07") rfl (by simp) (by decide)

end Convo


namespace Convo

/-! ### Conformance of the embedding with the repository test suite

Named counterparts of the concrete cases in `tests/test_parser.py`,
checked by evaluation against the embedded definitions. -/

theorem conf_classify_user_turn :
    classify (String.toList "❯ Hello there") = LineType.USER_TURN := by decide

theorem conf_classify_asst_turn :
    classify (String.toList "● Hello there") = LineType.ASST_TURN := by decide

theorem conf_classify_tool_camel :
    classify (String.toList "● Bash(echo hello)") = LineType.TOOL_CALL := by decide

theorem conf_classify_tool_read :
    classify (String.toList "● Read /path/to/file.py") = LineType.TOOL_CALL := by
  decide

theorem conf_classify_tool_searched :
    classify (String.toList "● Searched for 2 patterns, read 1 file (ctrl+o to expand)") =
      LineType.TOOL_CALL := by decide

theorem conf_classify_tool_ctrl_o :
    classify (String.toList "● Read 3 files, wrote 1 file (ctrl+o to expand)") =
      LineType.TOOL_CALL := by decide

theorem conf_classify_tool_output :
    classify (String.toList "  ⎿ some output") = LineType.TOOL_OUTPUT := by decide

theorem conf_classify_progress :
    classify (String.toList "✻ Baked for 43s") = LineType.PROGRESS := by decide

theorem conf_classify_progress_minutes :
    classify (String.toList "✻ Cogitated for 1m 46s") = LineType.PROGRESS := by decide

theorem conf_classify_blank_continuation :
    classify (String.toList "") = LineType.CONTINUATION := by decide

theorem conf_classify_asst_lowercase :
    classify (String.toList "● quiet laugh") = LineType.ASST_TURN := by decide

theorem conf_paragraphize_join :
    paragraphize [String.toList "Hello world", String.toList "this continues"] =
      [String.toList "Hello world this continues"] := by decide

theorem conf_paragraphize_blank_split :
    paragraphize [String.toList "First paragraph.", [], String.toList "Second paragraph."] =
      [String.toList "First paragraph.", String.toList "Second paragraph."] := by decide

theorem conf_paragraphize_dash :
    paragraphize [String.toList "Before", String.toList "---", String.toList "After"] =
      [String.toList "Before", String.toList "---", String.toList "After"] := by decide

theorem conf_parse_two_turns :
    parse [String.toList "❯ Hello there", String.toList "● Hi! How can I help?"]
        (String.toList "Assistant") (String.toList "User") false =
      [⟨Speaker.user, [String.toList "Hello there"], String.toList "User"⟩,
       ⟨Speaker.assistant, [String.toList "Hi! How can I help?"], String.toList "Assistant"⟩] := by
  decide

theorem conf_parse_strips_tool_block :
    parse [String.toList "● Bash(echo hello)", String.toList "  ⎿ hello",
        String.toList "❯ thanks"] (String.toList "Assistant") (String.toList "User")
        false =
      [⟨Speaker.user, [String.toList "thanks"], String.toList "User"⟩] := by decide

theorem conf_parse_verbose_keeps_tool_block :
    (parse [String.toList "● Bash(echo hello)", String.toList "  ⎿ hello",
        String.toList "❯ thanks"] (String.toList "Assistant") (String.toList "User")
        true).length = 2 := by decide

theorem conf_detect_date_iso :
    detect_date [String.toList "❯ Hello",
        String.toList "● This was on 2026-01-15 when things happened."]
        (String.toList "X") = String.toList "2026-01-15" := by decide

theorem conf_detect_date_written :
    detect_date [String.toList "met March 7, 2024 ok"] (String.toList "X") =
      String.toList "March 7, 2024" := by decide

theorem conf_detect_date_bounded :
    isoLine (String.toList "x12024-03-071") = none := by decide

end Convo
